import Mathlib

/-!
Shallow embedding of the homomorphic-authentication repository.

The repository builds a two-party authentication protocol on top of the
external go-tfhe homomorphic-encryption library:

* `crypto/bytestream.go` — a deterministic keystream (`ByteStream`) built from
  FNV-128 digests of the key material feeding an AES-CTR stream;
* `crypto/packet.go` — `Packet` (key material): bitwise `Encrypt`/`Decrypt`
  and parallel homomorphic gate evaluation over ciphertexts;
* `crypto/publickey.go` — a wire representation of the go-tfhe public key;
* the client and server files — sign-up and the two-phase login protocol with
  the `makeEncryptedMutation` challenge and the in-memory user registry.

External library calls (go-tfhe gates, FNV, AES) are embedded as parameters:
a structure of abstract types and operations.  Machine bytes are `Nat` with
the byte conversions of the Go code made explicit as `% 256`; Go `panic` and
`error` paths are `Option`.
-/

set_option maxRecDepth 8000

/-- Abstract interface of the external go-tfhe backend exactly as consumed by
`crypto/packet.go`: per-bit symmetric encryption and decryption (ints holding
one bit in Go) and the six homomorphic gates.  `nilUnit` models the Go zero
value (`nil` pointer) filling freshly made `gates.Ctxt` slices. -/
structure HEBackend where
  CiphertextUnit : Type
  PublicKey : Type
  PrivateKey : Type
  nilUnit : CiphertextUnit
  BootsSymEncrypt : PrivateKey → Nat → CiphertextUnit
  BootsSymDecrypt : PrivateKey → CiphertextUnit → Nat
  Not : PublicKey → CiphertextUnit → CiphertextUnit
  Copy : PublicKey → CiphertextUnit → CiphertextUnit
  And : PublicKey → CiphertextUnit → CiphertextUnit → CiphertextUnit
  Or : PublicKey → CiphertextUnit → CiphertextUnit → CiphertextUnit
  Xor : PublicKey → CiphertextUnit → CiphertextUnit → CiphertextUnit
  Xnor : PublicKey → CiphertextUnit → CiphertextUnit → CiphertextUnit

/-- Ciphertext: an ordered sequence of encrypted-bit units (`gates.Ctxt`,
a slice of `*core.LweSample` in Go). -/
abbrev Ctxt (B : HEBackend) := List B.CiphertextUnit

/-- Packet is used to encrypt values, and decrypt or operate on encrypted
values (`crypto/packet.go`).  Both Go constructors populate `pub`; only
`MakePacket` populates `prv`, so a `nil` private key is `none`. -/
structure Packet (B : HEBackend) where
  pub : B.PublicKey
  prv : Option B.PrivateKey

/-- MakePublicPacket makes a Packet from a public key to operate on encrypted
values: only the public key is set, the private key stays the Go `nil`.
(The Go version first converts the wire `crypto.PublicKey` via
`fromPublicKey`; that conversion is modelled in the serialization section.) -/
def MakePublicPacket (B : HEBackend) (publicKey : B.PublicKey) : Packet B :=
  ⟨publicKey, none⟩

/-- The eight ciphertext units Encrypt produces for one payload byte:
Go runs `ctxt[i] = p.prv.BootsSymEncrypt(int(b>>j) & 0x1)` for `j = 0..7`,
so the least significant bit of the byte comes first. -/
def encryptByte (B : HEBackend) (prv : B.PrivateKey) (b : Nat) : Ctxt B :=
  (List.range 8).map fun j => B.BootsSymEncrypt prv ((b >>> j) &&& 1)

/-- The full ciphertext Encrypt produces: the Go loop `for _, b := range
payload` emitting eight units per byte, in payload order. -/
def encryptBytes (B : HEBackend) (prv : B.PrivateKey) : List Nat → Ctxt B
  | [] => []
  | b :: payload => encryptByte B prv b ++ encryptBytes B prv payload

/-- Encrypt uses a Packet's private key to encrypt a payload
(`crypto/packet.go`).  Calling it on a public-only packet dereferences the
`nil` private key in Go; that is `none` here. -/
def Packet.Encrypt {B : HEBackend} (p : Packet B) (payload : List Nat) :
    Option (Ctxt B) :=
  match p.prv with
  | none => none
  | some prv => some (encryptBytes B prv payload)

/-- One iteration of the Go Decrypt loop body,
`result[j] = (result[j] >> 1) | (byte(p.prv.BootsSymDecrypt(..)) << 7)`,
on the already-decrypted bit `d`; the `byte` conversion and the byte shift
are made explicit as `% 256`. -/
def decStep (acc d : Nat) : Nat := (acc >>> 1) ||| (((d % 256) <<< 7) % 256)

/-- Value of one output byte of Decrypt: at most eight consecutive decrypted
bits folded through `decStep` starting from the zero byte `result[j]`. -/
def byteAssemble (bits : List Nat) : Nat := bits.foldl decStep 0

/-- Byte reconstruction of Decrypt on the list of decrypted bits: one output
byte per chunk of eight bits; the loop's early `return` on `i >=
len(encryptedPayload)` cuts the trailing chunk short, so the bits of a
partial final chunk are shifted fewer times and end in the byte's high
positions. -/
def bitsToBytes (bits : List Nat) : List Nat :=
  if h : bits = [] then []
  else byteAssemble (bits.take 8) :: bitsToBytes (bits.drop 8)
termination_by bits.length
decreasing_by
  simp only [List.length_drop]
  have : 0 < bits.length := List.length_pos.mpr h
  omega

/-- Decrypt uses a Packet's private key to decrypt a payload
(`crypto/packet.go`).  `result := make([]byte, (len+7)/8)` with the
`len(result) == 0` early return is the `[]` case of `bitsToBytes`; a `nil`
private key is `none` as in `Encrypt`. -/
def Packet.Decrypt {B : HEBackend} (p : Packet B) (encryptedPayload : Ctxt B) :
    Option (List Nat) :=
  match p.prv with
  | none => none
  | some prv => some (bitsToBytes (encryptedPayload.map (B.BootsSymDecrypt prv)))

/-- ParallelBinary fans one unit of work out per bit position and joins before
returning, preserving positional order, so the concurrent evaluation denotes
the pointwise `zipWith`; the Go `panic("expected equal bit size")` on a
length mismatch is `none`. -/
def Packet.ParallelBinary {B : HEBackend} (p : Packet B)
    (operation : B.PublicKey → B.CiphertextUnit → B.CiphertextUnit → B.CiphertextUnit)
    (a b : Ctxt B) : Option (Ctxt B) :=
  if a.length = b.length then some (List.zipWith (operation p.pub) a b) else none

/-- ParallelUnary: the unary fan-out, a pointwise map. -/
def Packet.ParallelUnary {B : HEBackend} (p : Packet B)
    (operation : B.PublicKey → B.CiphertextUnit → B.CiphertextUnit)
    (a : Ctxt B) : Ctxt B :=
  a.map (operation p.pub)

/-- And uses a Packet's public key to perform a bitwise And on two encrypted
payloads in parallel. -/
def Packet.And {B : HEBackend} (p : Packet B) (a b : Ctxt B) : Option (Ctxt B) :=
  p.ParallelBinary B.And a b

/-- Or uses a Packet's public key to perform a bitwise Or on two encrypted
payloads in parallel. -/
def Packet.Or {B : HEBackend} (p : Packet B) (a b : Ctxt B) : Option (Ctxt B) :=
  p.ParallelBinary B.Or a b

/-- Xor uses a Packet's public key to perform a bitwise Xor on two encrypted
payloads in parallel. -/
def Packet.Xor {B : HEBackend} (p : Packet B) (a b : Ctxt B) : Option (Ctxt B) :=
  p.ParallelBinary B.Xor a b

/-- XNor uses a Packet's public key to perform a bitwise XNor on two encrypted
payloads in parallel. -/
def Packet.XNor {B : HEBackend} (p : Packet B) (a b : Ctxt B) : Option (Ctxt B) :=
  p.ParallelBinary B.Xnor a b

/-- Not uses a Packet's public key to perform a bitwise Not on an encrypted
payload in parallel. -/
def Packet.Not {B : HEBackend} (p : Packet B) (a : Ctxt B) : Ctxt B :=
  p.ParallelUnary B.Not a

/-- Copy uses a Packet's public key to copy an encrypted payload in
parallel. -/
def Packet.Copy {B : HEBackend} (p : Packet B) (a : Ctxt B) : Ctxt B :=
  p.ParallelUnary B.Copy a

/-- Correctness assumption on the backend: decryption inverts encryption on
single bits (`BootsSymDecrypt` inverts `BootsSymEncrypt`). -/
def EncInverts (B : HEBackend) (prv : B.PrivateKey) : Prop :=
  ∀ b : Nat, b ≤ 1 → B.BootsSymDecrypt prv (B.BootsSymEncrypt prv b) = b

/-- Correctness assumption on the backend: the homomorphic NOT gate computes
boolean negation on units that decrypt to a bit. -/
def NotComputes (B : HEBackend) (pub : B.PublicKey) (prv : B.PrivateKey) : Prop :=
  ∀ u : B.CiphertextUnit, B.BootsSymDecrypt prv u ≤ 1 →
    B.BootsSymDecrypt prv (B.Not pub u) = 1 ^^^ B.BootsSymDecrypt prv u

/-- Correctness assumption on the backend: the homomorphic XOR gate computes
boolean XOR on units that decrypt to bits. -/
def XorComputes (B : HEBackend) (pub : B.PublicKey) (prv : B.PrivateKey) : Prop :=
  ∀ u v : B.CiphertextUnit,
    B.BootsSymDecrypt prv u ≤ 1 → B.BootsSymDecrypt prv v ≤ 1 →
    B.BootsSymDecrypt prv (B.Xor pub u v)
      = B.BootsSymDecrypt prv u ^^^ B.BootsSymDecrypt prv v

/-- Predicate: every entry of the list is a single bit. -/
def IsBitList (l : List Nat) : Prop := ∀ d ∈ l, d ≤ 1

/-- The plaintext bit sequence underlying a byte payload, in exactly the
order `Encrypt` walks it: eight bits per byte, least significant first. -/
def bytesToBits : List Nat → List Nat
  | [] => []
  | b :: p => ((List.range 8).map fun j => (b >>> j) &&& 1) ++ bytesToBits p

/-- Numeric value of a bit list read least-significant-bit first. -/
def bitsNum : List Nat → Nat
  | [] => 0
  | d :: ds => d + 2 * bitsNum ds

/-- xorBytes returns a slice of bytes that is the XOR of the input values
(server file); Go panics when the lengths differ, which is `none` here. -/
def xorBytes (a b : List Nat) : Option (List Nat) :=
  if a.length = b.length then some (List.zipWith (fun x y => x ^^^ y) a b)
  else none

/-- makeEncryptedMutation returns an encrypted number such that the upper and
lower halves share the same bits, without knowing what the value is (server
file).  Per index `i < len/2` one byte is drawn from `MakeRandByteStream`
(`coins i` here); an even draw picks the NOT gate, otherwise the identity,
and the chosen function of `encryptedPayload[0]` is written to positions `i`
and `i + len/2` of a freshly made (nil-filled) slice. -/
def makeEncryptedMutation {B : HEBackend} (packet : Packet B)
    (encryptedPayload : Ctxt B) (coins : Nat → Nat) : Ctxt B :=
  let half := encryptedPayload.length / 2
  (List.range half).foldl
    (fun randomPayload i =>
      let f : B.CiphertextUnit → B.CiphertextUnit :=
        if coins i % 2 = 0 then B.Not packet.pub else fun a => a
      (randomPayload.set i (f (encryptedPayload.getD 0 B.nilUnit))).set
        (i + half) (f (encryptedPayload.getD 0 B.nilUnit)))
    (List.replicate encryptedPayload.length B.nilUnit)

/-- The gate outcome `makeEncryptedMutation` assigns to the pair
`(i, i + half)`: NOT of `encryptedPayload[0]` on an even coin, the unit
itself otherwise. -/
def mutUnit {B : HEBackend} (pub : B.PublicKey) (e0 : B.CiphertextUnit)
    (coins : Nat → Nat) (i : Nat) : B.CiphertextUnit :=
  if coins i % 2 = 0 then B.Not pub e0 else e0

/-- Client-side recovery step of `Client.LogIn`: decrypt the mutated secret
with the private key and XOR the first `messageByteLen` bytes with the rest.
The Go slicings `mutatedSecret[:n]` and `mutatedSecret[n:]` fault when the
decrypted payload is shorter than `n`; that is the `none` branch. -/
def logInRecover {B : HEBackend} (packet : Packet B) (messageByteLen : Nat)
    (encryptedMutatedSecret : Ctxt B) : Option (List Nat) :=
  match packet.Decrypt encryptedMutatedSecret with
  | none => none
  | some mutatedSecret =>
    if messageByteLen ≤ mutatedSecret.length then
      xorBytes (mutatedSecret.take messageByteLen)
        (mutatedSecret.drop messageByteLen)
    else none

/-- User is a user's profile for logging in (server file). -/
structure User (B : HEBackend) where
  Username : String
  EncryptedSecret : Ctxt B
  SecretHash : List Nat
  Salt : List Nat

/-- SignUpRequest is a request to sign up for a service (client file). -/
structure SignUpRequest (B : HEBackend) where
  Username : String
  EncryptedSecret : Ctxt B
  Secret : List Nat

/-- FirstLogInRequest is a request to start logging into a service; the
public key carried on the wire is modelled after its `fromPublicKey`
conversion. -/
structure FirstLogInRequest (B : HEBackend) where
  Username : String
  PublicKey : B.PublicKey

/-- SecondLogInRequest is a request to finish logging into a service. -/
structure SecondLogInRequest where
  Username : String
  Secret : List Nat

/-- The server's `userDatabase` map, username to record. -/
def UserDatabase (B : HEBackend) := String → Option (User B)

/-- The distinct error values the server writes via `http.Error`:
JSON decode failures, `errUserExists`, `errUserDoesNotExist`,
`errInvalidCredentials`, `rand.Read` failures and hash `Write` failures. -/
inductive ServerErr
  | decodeFailure
  | userExists
  | userDoesNotExist
  | invalidCredentials
  | randFailure
  | hashFailure
deriving DecidableEq

/-- Result of one `SignUpHandler` call: the written HTTP status, the error
value written with it (if any), and the registry after the call. -/
structure SignUpOutcome (B : HEBackend) where
  status : Nat
  err : Option ServerErr
  userDatabase : UserDatabase B

/-- SignUpHandler handles sign up requests (server file), serialized.
Inputs stand for the request-scoped effects: `decoded` is the JSON decode of
the body (`none` = malformed), `saltDrawn` the `rand.Read` result, and
`hashWrite` the FNV-64 salted digest (`none` = write error).  New users are
registered with status 200; malformed requests and existing users get 400;
randomness and hashing errors get 500 and, like every failure, leave the
registry unchanged. -/
def SignUpHandler {B : HEBackend} (db : UserDatabase B)
    (decoded : Option (SignUpRequest B)) (saltDrawn : Option (List Nat))
    (hashWrite : List Nat → Option (List Nat)) : SignUpOutcome B :=
  match decoded with
  | none => ⟨400, some .decodeFailure, db⟩
  | some req =>
    match db req.Username with
    | some _ => ⟨400, some .userExists, db⟩
    | none =>
      match saltDrawn with
      | none => ⟨500, some .randFailure, db⟩
      | some salt =>
        match hashWrite (salt ++ req.Secret) with
        | none => ⟨500, some .hashFailure, db⟩
        | some digest =>
          ⟨200, none,
            fun u => if u = req.Username then
                some ⟨req.Username, req.EncryptedSecret, digest, salt⟩
              else db u⟩

/-- Result written by a login handler: a 4XX client error, a 5XX server
error, the phase-1 challenge body, the phase-2 success, or a Go panic
(unreachable length mismatch inside the handler). -/
inductive LoginResult (B : HEBackend)
  | clientErr (status : Nat) (e : ServerErr)
  | serverErr (status : Nat) (e : ServerErr)
  | okChallenge (encryptedMutatedSecret : Ctxt B)
  | okLogin
  | panicked

/-- FirstLoginHandler handles first login requests (server file): decode,
registry lookup, then the homomorphic challenge
`Xor(makeEncryptedMutation(..), encryptedSecret)` under a public-only packet
rebuilt from the submitted key.  The handler never writes the registry, so
the returned registry is the input one on every path. -/
def FirstLoginHandler {B : HEBackend} (db : UserDatabase B)
    (decoded : Option (FirstLogInRequest B)) (coins : Nat → Nat) :
    LoginResult B × UserDatabase B :=
  match decoded with
  | none => (.clientErr 400 .decodeFailure, db)
  | some req =>
    match db req.Username with
    | none => (.clientErr 400 .userDoesNotExist, db)
    | some user =>
      let serverPacket := MakePublicPacket B req.PublicKey
      match serverPacket.Xor
          (makeEncryptedMutation serverPacket user.EncryptedSecret coins)
          user.EncryptedSecret with
      | none => (.panicked, db)
      | some emc => (.okChallenge emc, db)

/-- SecondLoginHandler handles second login requests (server file): decode,
registry lookup, salted FNV-64 hash of the submitted secret, comparison with
the stored hash; 403 with `errInvalidCredentials` on mismatch.  It never
writes the registry. -/
def SecondLoginHandler {B : HEBackend} (db : UserDatabase B)
    (decoded : Option SecondLogInRequest)
    (hashWrite : List Nat → Option (List Nat)) :
    LoginResult B × UserDatabase B :=
  match decoded with
  | none => (.clientErr 400 .decodeFailure, db)
  | some req =>
    match db req.Username with
    | none => (.clientErr 400 .userDoesNotExist, db)
    | some user =>
      match hashWrite (user.Salt ++ req.Secret) with
      | none => (.serverErr 500 .hashFailure, db)
      | some secretHash =>
        if secretHash = user.SecretHash then (.okLogin, db)
        else (.clientErr 403 .invalidCredentials, db)

/-- Abstract interface of the external standard-library primitives used by
`crypto/bytestream.go`: the FNV-128 digest, the AES block-cipher constructor
(which can fail; the Go code panics then) and the CTR keystream, whose state
advances deterministically with each `XORKeyStream` call. -/
structure CipherLib where
  BlockCipher : Type
  StreamState : Type
  fnv128 : List Nat → List Nat
  newCipher : List Nat → Option BlockCipher
  newCTR : BlockCipher → List Nat → StreamState
  xorKeyStream : StreamState → List Nat → List Nat × StreamState

/-- ByteStream is used to generate a stream of bytes
(`crypto/bytestream.go`). -/
structure ByteStream (L : CipherLib) where
  stream : L.StreamState

/-- MakeByteStream returns a ByteStream initialized by key: FNV-128 of
`key ‖ 0` seeds the AES key, FNV-128 of `key ‖ 1` the CTR initialization
vector.  The Go code panics when `aes.NewCipher` fails (`none` here). -/
def MakeByteStream (L : CipherLib) (key : List Nat) : Option (ByteStream L) :=
  let seed1 := L.fnv128 (key ++ [0])
  let seed2 := L.fnv128 (key ++ [1])
  match L.newCipher seed1 with
  | none => none
  | some block => some ⟨L.newCTR block seed2⟩

/-- NextBytes returns a ByteStream's next n bytes: `XORKeyStream` over a
fresh zero buffer, advancing the stream state. -/
def ByteStream.NextBytes {L : CipherLib} (cbs : ByteStream L) (n : Nat) :
    List Nat × ByteStream L :=
  let r := L.xorKeyStream cbs.stream (List.replicate n 0)
  (r.1, ⟨r.2⟩)

/-- NextByte returns a ByteStream's next byte, `NextBytes(1)[0]`. -/
def ByteStream.NextByte {L : CipherLib} (cbs : ByteStream L) :
    Nat × ByteStream L :=
  let r := cbs.NextBytes 1
  (r.1.getD 0 0, r.2)

/-- One observable call against a ByteStream. -/
inductive StreamCall
  | nextBytes (n : Nat)
  | nextByte

/-- Run a sequence of calls against a ByteStream, collecting every output. -/
def runCalls (L : CipherLib) (cbs : ByteStream L) : List StreamCall → List (List Nat)
  | [] => []
  | .nextBytes n :: rest =>
    let r := cbs.NextBytes n
    r.1 :: runCalls L r.2 rest
  | .nextByte :: rest =>
    let r := cbs.NextByte
    [r.1] :: runCalls L r.2 rest

/-- Opaque leaf types of the go-tfhe structures touched by
`crypto/publickey.go`: the parameter records, the key-switch key, the part of
`core.LweBootstrappingKey` this code never reads, and the numeric scalars
(`complex128`, `float64`), all only moved, never computed with. -/
structure TfheTypes where
  ParamSet : Type
  LweParams : Type
  TGswParams : Type
  TLweParams : Type
  KeySwitchKey : Type
  BkRest : Type
  Cx : Type
  Fl : Type

namespace core

/-- go-tfhe `fft.LagrangeHalfCPolynomial`: a coefficient vector. -/
structure LagrangeHalfCPolynomial (T : TfheTypes) where
  Coefs : List T.Cx

/-- go-tfhe `core.TLweSampleFFT`. -/
structure TLweSampleFFT (T : TfheTypes) where
  A : List (LagrangeHalfCPolynomial T)
  CurrentVariance : T.Fl
  K : Int

/-- go-tfhe `core.TGswSampleFFT`. -/
structure TGswSampleFFT (T : TfheTypes) where
  AllSample : List (TLweSampleFFT T)
  BlocSample : List (List (TLweSampleFFT T))
  K : Int
  L : Int

/-- go-tfhe `core.LweBootstrappingKey`: the fields `crypto/publickey.go`
reads, plus its remaining (never read) content as `rest`. -/
structure LweBootstrappingKey (T : TfheTypes) where
  InOutParams : T.LweParams
  BkParams : T.TGswParams
  AccumParams : T.TLweParams
  ExtractParams : T.LweParams
  Ks : T.KeySwitchKey
  rest : T.BkRest

/-- go-tfhe `core.LweBootstrappingKeyFFT`. -/
structure LweBootstrappingKeyFFT (T : TfheTypes) where
  InOutParams : T.LweParams
  BkParams : T.TGswParams
  AccumParams : T.TLweParams
  ExtractParams : T.LweParams
  Bk : List (TGswSampleFFT T)
  Ks : T.KeySwitchKey

/-- go-tfhe `core.LweBootstrappingKeyWrapper`. -/
structure LweBootstrappingKeyWrapper (T : TfheTypes) where
  Bk : LweBootstrappingKey T
  BkFFT : LweBootstrappingKeyFFT T

end core

namespace gates

/-- go-tfhe `gates.PublicKey`. -/
structure PublicKey (T : TfheTypes) where
  Params : T.ParamSet
  Bkw : core.LweBootstrappingKeyWrapper T

end gates

namespace crypto

/-- lagrangeHalfCPolynomial is a json marshallable wrapper version of a
go-tfhe primitive (`crypto/publickey.go`). -/
structure lagrangeHalfCPolynomial (T : TfheTypes) where
  Coefs : List T.Cx

/-- tLweSampleFFT is a json marshallable wrapper version of a go-tfhe
primitive. -/
structure tLweSampleFFT (T : TfheTypes) where
  A : List (lagrangeHalfCPolynomial T)
  CurrentVariance : T.Fl
  K : Int

/-- tGswSampleFFT is a json marshallable version of a go-tfhe primitive. -/
structure tGswSampleFFT (T : TfheTypes) where
  AllSample : List (tLweSampleFFT T)
  BlocSample : List (List (tLweSampleFFT T))
  K : Int
  L : Int

/-- lweBootstrappingKeyFFT is a json version of a go-tfhe primitive. -/
structure lweBootstrappingKeyFFT (T : TfheTypes) where
  InOutParams : T.LweParams
  BkParams : T.TGswParams
  AccumParams : T.TLweParams
  ExtractParams : T.LweParams
  Bk : List (tGswSampleFFT T)
  Ks : T.KeySwitchKey

/-- lweBootstrappingKeyWrapper is a json marshallable wrapper around a
go-tfhe primitive; its `Bk` is the shared `core` key itself. -/
structure lweBootstrappingKeyWrapper (T : TfheTypes) where
  Bk : core.LweBootstrappingKey T
  BkFFT : lweBootstrappingKeyFFT T

/-- PublicKey is a json marshallable version of the go-tfhe public key. -/
structure PublicKey (T : TfheTypes) where
  Params : T.ParamSet
  Bkw : lweBootstrappingKeyWrapper T

end crypto

/-- MakePublicKey returns a (wire) PublicKey from a go-tfhe PublicKey
(`crypto/publickey.go`): the FFT samples are copied element by element, and
the wire `BkFFT` parameter fields are read from `pk.Bkw.Bk` (not from
`pk.Bkw.BkFFT`), exactly as in the source. -/
def MakePublicKey {T : TfheTypes} (pk : gates.PublicKey T) : crypto.PublicKey T :=
  let Bk := pk.Bkw.BkFFT.Bk.map fun v =>
    { AllSample := v.AllSample.map fun w =>
        { A := w.A.map fun x => { Coefs := x.Coefs }
          CurrentVariance := w.CurrentVariance
          K := w.K }
      BlocSample := v.BlocSample.map fun w => w.map fun x =>
        { A := x.A.map fun y => { Coefs := y.Coefs }
          CurrentVariance := x.CurrentVariance
          K := x.K }
      K := v.K
      L := v.L }
  { Params := pk.Params
    Bkw :=
      { Bk := pk.Bkw.Bk
        BkFFT :=
          { InOutParams := pk.Bkw.Bk.InOutParams
            BkParams := pk.Bkw.Bk.BkParams
            AccumParams := pk.Bkw.Bk.AccumParams
            ExtractParams := pk.Bkw.Bk.ExtractParams
            Ks := pk.Bkw.Bk.Ks
            Bk := Bk } } }

/-- fromPublicKey returns a go-tfhe PublicKey from a (wire) PublicKey
(`crypto/publickey.go`); like `MakePublicKey`, the rebuilt `BkFFT` parameter
fields come from `pk.Bkw.Bk`. -/
def crypto.PublicKey.fromPublicKey {T : TfheTypes} (pk : crypto.PublicKey T) :
    gates.PublicKey T :=
  let Bk := pk.Bkw.BkFFT.Bk.map fun v =>
    { AllSample := v.AllSample.map fun w =>
        { A := w.A.map fun x => { Coefs := x.Coefs }
          CurrentVariance := w.CurrentVariance
          K := w.K }
      BlocSample := v.BlocSample.map fun w => w.map fun x =>
        { A := x.A.map fun y => { Coefs := y.Coefs }
          CurrentVariance := x.CurrentVariance
          K := x.K }
      K := v.K
      L := v.L }
  { Params := pk.Params
    Bkw :=
      { Bk := pk.Bkw.Bk
        BkFFT :=
          { InOutParams := pk.Bkw.Bk.InOutParams
            BkParams := pk.Bkw.Bk.BkParams
            AccumParams := pk.Bkw.Bk.AccumParams
            ExtractParams := pk.Bkw.Bk.ExtractParams
            Ks := pk.Bkw.Bk.Ks
            Bk := Bk } } }

/-- Concrete backend instance used to evaluate the development on closed
inputs: a ciphertext unit carries its plaintext bit and the gates are the
boolean functions.  It satisfies `EncInverts`, `NotComputes` and
`XorComputes` definitionally. -/
abbrev natBackend : HEBackend where
  CiphertextUnit := Nat
  PublicKey := Unit
  PrivateKey := Unit
  nilUnit := 0
  BootsSymEncrypt := fun _ b => b
  BootsSymDecrypt := fun _ u => u
  Not := fun _ u => 1 ^^^ u
  Copy := fun _ u => u
  And := fun _ u v => u &&& v
  Or := fun _ u v => u ||| v
  Xor := fun _ u v => u ^^^ v
  Xnor := fun _ u v => 1 ^^^ (u ^^^ v)

/-- Concrete cipher-library instance for closed evaluation: the stream state
counts consumed positions and the keystream is the position sequence. -/
abbrev natLib : CipherLib where
  BlockCipher := List Nat
  StreamState := Nat
  fnv128 := fun l => l ++ [7]
  newCipher := fun l => some l
  newCTR := fun _ iv => iv.length
  xorKeyStream := fun s buf =>
    ((List.range buf.length).map (fun i => (s + i) % 256), s + buf.length)

/-- Concrete leaf-type instantiation for closed evaluation of the
serialization layer. -/
abbrev natTypes : TfheTypes where
  ParamSet := Nat
  LweParams := Nat
  TGswParams := Nat
  TLweParams := Nat
  KeySwitchKey := Nat
  BkRest := Nat
  Cx := Nat
  Fl := Nat

/-- A syntactically valid but ill-formed go-tfhe public key whose cached
`BkFFT` parameter fields disagree with those of its `Bk`. -/
def badPk : gates.PublicKey natTypes where
  Params := 0
  Bkw :=
    { Bk :=
        { InOutParams := 0, BkParams := 0, AccumParams := 0
          ExtractParams := 0, Ks := 0, rest := 0 }
      BkFFT :=
        { InOutParams := 1, BkParams := 0, AccumParams := 0
          ExtractParams := 0, Bk := [], Ks := 0 } }

/-! ### Arithmetic facts about the byte-assembly step -/

/-- Multiplying by 128 then reducing mod 256 keeps only the low bit. -/
theorem mul128_mod256 (x : Nat) : x * 128 % 256 = x % 2 * 128 := by omega

/-- On a byte-sized accumulator, one Decrypt loop iteration halves the
accumulator and adds the incoming bit at position 7. -/
theorem decStep_eq_of_lt (acc d : Nat) (hacc : acc < 256) :
    decStep acc d = acc / 2 + d % 2 * 128 := by
  have hshift : ((d % 256) <<< 7) % 256 = d % 2 * 128 := by
    rw [Nat.shiftLeft_eq]
    have h7 : (2 : Nat) ^ 7 = 128 := by norm_num
    rw [h7, mul128_mod256, Nat.mod_mod_of_dvd d (by norm_num)]
  have hcases : ∀ a < 256, ∀ e < 2, (a >>> 1) ||| (e * 128) = a / 2 + e * 128 := by decide
  rw [decStep, hshift]
  exact hcases acc hacc (d % 2) (Nat.mod_lt d (by norm_num))

/-- Closed form of the Decrypt fold on a chunk of at most eight bits: the
accumulator is shifted down and the incoming bits land in the high
positions, least significant incoming bit lowest. -/
theorem foldl_decStep_eq (ds : List Nat) (hlen : ds.length ≤ 8) :
    ∀ acc : Nat, acc < 256 →
      ds.foldl decStep acc
        = acc / 2 ^ ds.length + bitsNum (ds.map (· % 2)) * 2 ^ (8 - ds.length) := by
  induction ds with
  | nil => intro acc hacc; simp [bitsNum]
  | cons d ds ih =>
    intro acc hacc
    have hL : ds.length ≤ 7 := by simpa using hlen
    have hstep : decStep acc d = acc / 2 + d % 2 * 128 := decStep_eq_of_lt acc d hacc
    have hmod : d % 2 ≤ 1 := by omega
    have hlt : acc / 2 + d % 2 * 128 < 256 := by omega
    rw [List.foldl_cons, hstep, ih (by omega) _ hlt]
    simp only [List.map_cons, bitsNum, List.length_cons]
    have e4 : (acc / 2 + d % 2 * 128) / 2 ^ ds.length
        = acc / 2 ^ (ds.length + 1) + d % 2 * 2 ^ (7 - ds.length) := by
      have h128 : (128 : Nat) = 2 ^ (7 - ds.length) * 2 ^ ds.length := by
        have h7 : 7 - ds.length + ds.length = 7 := by omega
        rw [← pow_add, h7]; norm_num
      have hpow : (2 : Nat) * 2 ^ ds.length = 2 ^ (ds.length + 1) := by
        rw [pow_succ]; ring
      rw [h128, ← Nat.mul_assoc,
        Nat.add_mul_div_right _ _ (pow_pos (by norm_num : (0:ℕ) < 2) ds.length),
        Nat.div_div_eq_div_mul, hpow]
    rw [e4]
    have e5 : 8 - (ds.length + 1) = 7 - ds.length := by omega
    have e6 : (2 : Nat) ^ (8 - ds.length) = 2 * 2 ^ (7 - ds.length) := by
      have : 8 - ds.length = (7 - ds.length) + 1 := by omega
      rw [this, pow_succ]; ring
    rw [e5, e6]; ring

/-- Closed form of one Decrypt output byte. -/
theorem byteAssemble_eq (ds : List Nat) (h : ds.length ≤ 8) :
    byteAssemble ds = bitsNum (ds.map (· % 2)) * 2 ^ (8 - ds.length) := by
  have := foldl_decStep_eq ds h 0 (by norm_num)
  simpa [byteAssemble] using this

/-- Reducing a bit list mod 2 leaves it unchanged. -/
theorem map_mod_two_of_bits (l : List Nat) (h : IsBitList l) : l.map (· % 2) = l := by
  induction l with
  | nil => rfl
  | cons d ds ih =>
    have hd : d ≤ 1 := h d (List.mem_cons_self d ds)
    have hds : IsBitList ds := fun x hx => h x (List.mem_cons_of_mem d hx)
    simp [ih hds, Nat.mod_eq_of_lt (by omega : d < 2)]

/-- Assembling the eight Encrypt bits of a byte gives the byte back: the
decide-checked core of the Encrypt/Decrypt round-trip. -/
theorem byteAssemble_bits_of_byte : ∀ b < 256,
    byteAssemble ((List.range 8).map fun j => (b >>> j) &&& 1) = b := by decide

/-! ### Facts about the plaintext bit expansion -/

theorem bytesToBits_append (p q : List Nat) :
    bytesToBits (p ++ q) = bytesToBits p ++ bytesToBits q := by
  induction p with
  | nil => rfl
  | cons b p ih => simp [bytesToBits, ih]

theorem length_bytesToBits (p : List Nat) :
    (bytesToBits p).length = 8 * p.length := by
  induction p with
  | nil => rfl
  | cons b p ih => simp [bytesToBits, ih]; ring

theorem isBitList_bytesToBits (p : List Nat) : IsBitList (bytesToBits p) := by
  induction p with
  | nil => intro d hd; simp [bytesToBits] at hd
  | cons b p ih =>
    intro d hd
    simp only [bytesToBits, List.mem_append, List.mem_map, List.mem_range] at hd
    rcases hd with ⟨j, _, rfl⟩ | hd
    · exact Nat.and_le_right
    · exact ih d hd

/-! ### Facts about the byte reconstruction -/

theorem bitsToBytes_nil : bitsToBytes [] = [] := by
  rw [bitsToBytes]; simp

theorem bitsToBytes_cons_chunk (bits : List Nat) (h : bits ≠ []) :
    bitsToBytes bits = byteAssemble (bits.take 8) :: bitsToBytes (bits.drop 8) := by
  rw [bitsToBytes]; simp [h]

theorem length_bitsToBytes (bits : List Nat) :
    (bitsToBytes bits).length = (bits.length + 7) / 8 := by
  induction bits using bitsToBytes.induct with
  | case1 => simp [bitsToBytes_nil]
  | case2 bits h ih =>
    rw [bitsToBytes_cons_chunk bits h]
    have hpos : 0 < bits.length := List.length_pos.mpr h
    simp only [List.length_cons, ih, List.length_drop]
    omega

theorem bitsToBytes_append (a b : List Nat) :
    8 ∣ a.length → bitsToBytes (a ++ b) = bitsToBytes a ++ bitsToBytes b := by
  induction a using bitsToBytes.induct with
  | case1 => intro _; simp [bitsToBytes_nil]
  | case2 a ha ih =>
    intro h
    have h8 : 8 ≤ a.length := by
      rcases h with ⟨k, hk⟩
      have : 0 < a.length := List.length_pos.mpr ha
      omega
    have hab : a ++ b ≠ [] := by
      intro hc
      exact ha (List.append_eq_nil.mp hc).1
    rw [bitsToBytes_cons_chunk _ hab, bitsToBytes_cons_chunk a ha,
      List.take_append_of_le_length h8, List.drop_append_of_le_length h8]
    rw [ih (by simp only [List.length_drop]; omega)]
    simp

/-! ### XOR distribution lemmas -/

theorem xor_le_one {a b : Nat} (ha : a ≤ 1) (hb : b ≤ 1) : a ^^^ b ≤ 1 := by
  interval_cases a <;> interval_cases b <;> decide

/-- XOR splits over the low bit and the rest of two numbers. -/
theorem xor_bit_step {a b : Nat} (x y : Nat) (ha : a ≤ 1) (hb : b ≤ 1) :
    (a + 2 * x) ^^^ (b + 2 * y) = (a ^^^ b) + 2 * (x ^^^ y) := by
  have k1 : (a + 2 * x) % 2 = a := by omega
  have k2 : (b + 2 * y) % 2 = b := by omega
  have hmod : ((a + 2 * x) ^^^ (b + 2 * y)) % 2 = a ^^^ b := by
    rw [← Nat.and_one_is_mod, Nat.and_xor_distrib_right,
      Nat.and_one_is_mod, Nat.and_one_is_mod, k1, k2]
  have hdiv : ((a + 2 * x) ^^^ (b + 2 * y)) / 2 = x ^^^ y := by
    rw [Nat.xor_div_two]
    congr 1 <;> omega
  have hxab : a ^^^ b ≤ 1 := xor_le_one ha hb
  have := Nat.div_add_mod ((a + 2 * x) ^^^ (b + 2 * y)) 2
  omega

theorem two_mul_xor (x y : Nat) : 2 * (x ^^^ y) = (2 * x) ^^^ (2 * y) := by
  have h := @xor_bit_step 0 0 x y (by norm_num) (by norm_num)
  simpa using h.symm

theorem xor_mul_pow (x y k : Nat) :
    (x ^^^ y) * 2 ^ k = (x * 2 ^ k) ^^^ (y * 2 ^ k) := by
  induction k with
  | zero => simp
  | succ k ih =>
    have e : ∀ z : Nat, z * 2 ^ (k + 1) = 2 * (z * 2 ^ k) := by
      intro z; rw [pow_succ]; ring
    rw [e (x ^^^ y), e x, e y, ih, two_mul_xor]

theorem xor_shiftRight (x y n : Nat) :
    (x ^^^ y) >>> n = (x >>> n) ^^^ (y >>> n) := by
  induction n with
  | zero => rfl
  | succ n ih =>
    rw [Nat.shiftRight_succ, Nat.shiftRight_succ, Nat.shiftRight_succ, ih,
      Nat.xor_div_two]

/-- Value of the pointwise XOR of two bit lists. -/
theorem bitsNum_zipWith_xor (u : List Nat) :
    ∀ v : List Nat, u.length = v.length → IsBitList u → IsBitList v →
      bitsNum (List.zipWith (fun x y => x ^^^ y) u v) = bitsNum u ^^^ bitsNum v := by
  induction u with
  | nil =>
    intro v hl _ _
    cases v with
    | nil => simp [bitsNum]
    | cons c cs => simp at hl
  | cons d ds ih =>
    intro v hl hu hv
    cases v with
    | nil => simp at hl
    | cons c cs =>
      have hd : d ≤ 1 := hu d (List.mem_cons_self d ds)
      have hc : c ≤ 1 := hv c (List.mem_cons_self c cs)
      have hds : IsBitList ds := fun x hx => hu x (List.mem_cons_of_mem d hx)
      have hcs : IsBitList cs := fun x hx => hv x (List.mem_cons_of_mem c hx)
      simp only [List.zipWith_cons_cons, bitsNum]
      rw [ih cs (by simpa using hl) hds hcs, xor_bit_step (bitsNum ds) (bitsNum cs) hd hc]

/-- Pointwise XOR against a common mask twice cancels the mask. -/
theorem zipWith_xor_cancel_pair (m : List Nat) :
    ∀ a b : List Nat, m.length = a.length → m.length = b.length →
      List.zipWith (fun x y => x ^^^ y)
          (List.zipWith (fun x y => x ^^^ y) m a)
          (List.zipWith (fun x y => x ^^^ y) m b)
        = List.zipWith (fun x y => x ^^^ y) a b := by
  induction m with
  | nil =>
    intro a b h1 h2
    cases a <;> cases b <;> simp_all
  | cons e m ih =>
    intro a b h1 h2
    cases a with
    | nil => simp at h1
    | cons x a =>
      cases b with
      | nil => simp at h2
      | cons y b =>
        simp only [List.zipWith_cons_cons]
        rw [ih a b (by simpa using h1) (by simpa using h2)]
        congr 1
        rw [Nat.xor_comm e x, Nat.xor_assoc, ← Nat.xor_assoc e e, Nat.xor_self,
          Nat.zero_xor]

/-- XOR against a mask, then against the mask again, recovers the data. -/
theorem zipWith_xor_cancel_left (m : List Nat) :
    ∀ b : List Nat, m.length = b.length →
      List.zipWith (fun x y => x ^^^ y) m
          (List.zipWith (fun x y => x ^^^ y) m b) = b := by
  induction m with
  | nil => intro b h; cases b <;> simp_all
  | cons e m ih =>
    intro b h
    cases b with
    | nil => simp at h
    | cons y b =>
      simp only [List.zipWith_cons_cons]
      rw [ih b (by simpa using h), ← Nat.xor_assoc, Nat.xor_self, Nat.zero_xor]

/-- Bit expansion commutes with pointwise XOR of byte lists. -/
theorem bytesToBits_zipWith_xor (a : List Nat) :
    ∀ b : List Nat, a.length = b.length →
      bytesToBits (List.zipWith (fun x y => x ^^^ y) a b)
        = List.zipWith (fun x y => x ^^^ y) (bytesToBits a) (bytesToBits b) := by
  induction a with
  | nil => intro b h; cases b <;> simp_all [bytesToBits]
  | cons x a ih =>
    intro b h
    cases b with
    | nil => simp at h
    | cons y b =>
      simp only [List.zipWith_cons_cons, bytesToBits]
      rw [List.zipWith_append _ _ _ _ _ (by simp), ih b (by simpa using h)]
      congr 1
      apply List.ext_getElem
      · simp
      · intro q h1 h2
        simp only [List.getElem_map, List.getElem_zipWith, List.getElem_range]
        rw [xor_shiftRight, Nat.and_xor_distrib_right]

/-- Byte reconstruction commutes with pointwise XOR of bit lists. -/
theorem bitsToBytes_zipWith_xor (u : List Nat) :
    ∀ v : List Nat, u.length = v.length → IsBitList u → IsBitList v →
      bitsToBytes (List.zipWith (fun x y => x ^^^ y) u v)
        = List.zipWith (fun x y => x ^^^ y) (bitsToBytes u) (bitsToBytes v) := by
  induction u using bitsToBytes.induct with
  | case1 =>
    intro v hl _ _
    cases v with
    | nil => simp [bitsToBytes_nil]
    | cons c cs => simp at hl
  | case2 u hu ih =>
    intro v hl hbu hbv
    have hv : v ≠ [] := by
      intro hc
      subst hc
      exact hu (List.length_eq_zero.mp (by simpa using hl))
    have hzip : List.zipWith (fun x y => x ^^^ y) u v ≠ [] := by
      intro hc
      have hlen0 : (List.zipWith (fun x y => x ^^^ y) u v).length = 0 := by
        rw [hc]; rfl
      rw [List.length_zipWith, hl, Nat.min_self] at hlen0
      exact hv (List.length_eq_zero.mp hlen0)
    rw [bitsToBytes_cons_chunk _ hzip, bitsToBytes_cons_chunk u hu,
      bitsToBytes_cons_chunk v hv]
    simp only [List.zipWith_cons_cons]
    rw [List.take_zipWith, List.drop_zipWith]
    have htu : IsBitList (u.take 8) := fun x hx => hbu x (List.take_subset 8 u hx)
    have htv : IsBitList (v.take 8) := fun x hx => hbv x (List.take_subset 8 v hx)
    have hdu : IsBitList (u.drop 8) := fun x hx => hbu x (List.drop_subset 8 u hx)
    have hdv : IsBitList (v.drop 8) := fun x hx => hbv x (List.drop_subset 8 v hx)
    have hlt : (u.take 8).length = (v.take 8).length := by
      simp [List.length_take, hl]
    have hld : (u.drop 8).length = (v.drop 8).length := by
      simp [List.length_drop, hl]
    congr 1
    · -- the chunk bytes
      have hlen8 : (u.take 8).length ≤ 8 := by simp [List.length_take]
      have hzlen : (List.zipWith (fun x y => x ^^^ y) (u.take 8) (v.take 8)).length
          = (u.take 8).length := by
        rw [List.length_zipWith, hlt, Nat.min_self]
      have hbz : IsBitList (List.zipWith (fun x y => x ^^^ y) (u.take 8) (v.take 8)) := by
        intro d hd
        rcases List.mem_iff_getElem.mp hd with ⟨q, hq, rfl⟩
        rw [List.getElem_zipWith]
        exact xor_le_one (htu _ (List.getElem_mem _)) (htv _ (List.getElem_mem _))
      rw [byteAssemble_eq _ (by rw [hzlen]; exact hlen8),
        byteAssemble_eq _ hlen8,
        byteAssemble_eq _ (by simp [List.length_take])]
      rw [map_mod_two_of_bits _ hbz, map_mod_two_of_bits _ htu, map_mod_two_of_bits _ htv]
      rw [hzlen, ← hlt, bitsNum_zipWith_xor _ _ hlt htu htv, xor_mul_pow]
    · exact ih (v.drop 8) hld hdu hdv

/-- Reconstructing the bytes from the Encrypt bit expansion is the
identity on byte lists. -/
theorem bitsToBytes_bytesToBits (p : List Nat) (hb : ∀ b ∈ p, b < 256) :
    bitsToBytes (bytesToBits p) = p := by
  induction p with
  | nil => simp [bytesToBits, bitsToBytes_nil]
  | cons b p ih =>
    have hb0 : b < 256 := hb b (List.mem_cons_self b p)
    have hbp : ∀ x ∈ p, x < 256 := fun x hx => hb x (List.mem_cons_of_mem b hx)
    have hlen : ((List.range 8).map fun j => (b >>> j) &&& 1).length = 8 := by simp
    have hchunk : bitsToBytes ((List.range 8).map fun j => (b >>> j) &&& 1) = [b] := by
      have hne : ((List.range 8).map fun j => (b >>> j) &&& 1) ≠ [] := by
        intro hc; rw [hc] at hlen; simp at hlen
      rw [bitsToBytes_cons_chunk _ hne, List.take_of_length_le (by rw [hlen]),
        List.drop_eq_nil_of_le (by rw [hlen]), bitsToBytes_nil,
        byteAssemble_bits_of_byte b hb0]
    simp only [bytesToBits]
    rw [bitsToBytes_append _ _ (by rw [hlen]), hchunk, ih hbp]
    rfl

/-- Last produced byte of the reconstruction: the trailing chunk assembled. -/
theorem bitsToBytes_getLast (bits : List Nat) :
    bits ≠ [] →
      (bitsToBytes bits).getLast?
        = some (byteAssemble (bits.drop (8 * ((bits.length - 1) / 8)))) := by
  induction bits using bitsToBytes.induct with
  | case1 => intro h; exact absurd rfl h
  | case2 bits hb ih =>
    intro _
    have hpos : 0 < bits.length := List.length_pos.mpr hb
    rw [bitsToBytes_cons_chunk bits hb]
    by_cases hle : bits.length ≤ 8
    · have hdrop : bits.drop 8 = [] := List.drop_eq_nil_of_le hle
      have hidx : 8 * ((bits.length - 1) / 8) = 0 := by
        have : (bits.length - 1) / 8 = 0 := Nat.div_eq_of_lt (by omega)
        rw [this]
      rw [hdrop, bitsToBytes_nil, hidx, List.drop_zero,
        List.take_of_length_le hle]
      simp
    · have hne : bits.drop 8 ≠ [] := by
        intro hc
        have h0 : (bits.drop 8).length = 0 := by rw [hc]; rfl
        rw [List.length_drop] at h0
        omega
      have hrec := ih hne
      rw [List.getLast?_cons, hrec]
      simp only [Option.getD_some]
      have hidx2 : 8 + 8 * (((bits.drop 8).length - 1) / 8)
          = 8 * ((bits.length - 1) / 8) := by
        rw [List.length_drop]
        omega
      rw [List.drop_drop, hidx2]

/-- Positional form of the bit expansion: position `q` carries bit `q % 8`
(least significant first) of byte `q / 8`. -/
theorem bytesToBits_getElem (p : List Nat) :
    ∀ (q : Nat) (h : q < (bytesToBits p).length),
      (bytesToBits p)[q] = (p.getD (q / 8) 0 >>> (q % 8)) &&& 1 := by
  induction p with
  | nil => intro q h; rw [length_bytesToBits] at h; simp at h
  | cons b p ih =>
    intro q h
    by_cases hq : q < 8
    · simp only [bytesToBits]
      rw [List.getElem_append]
      rw [dif_pos (by simpa using hq)]
      simp only [List.getElem_map, List.getElem_range]
      rw [Nat.div_eq_of_lt hq, Nat.mod_eq_of_lt hq]
      rfl
    · simp only [bytesToBits]
      rw [List.getElem_append]
      rw [dif_neg (by simpa using hq)]
      simp only [List.length_map, List.length_range]
      have hb2 : q - 8 < (bytesToBits p).length := by
        rw [length_bytesToBits] at h ⊢
        simp only [List.length_cons] at h
        omega
      rw [ih (q - 8) hb2]
      have e1 : (q - 8) / 8 = q / 8 - 1 := by omega
      have e2 : (q - 8) % 8 = q % 8 := by omega
      rw [e1, e2]
      cases hqd : q / 8 with
      | zero => omega
      | succ k => simp

/-! ### Decryption of the produced ciphertexts -/

/-- Decrypting an Encrypt output unit-by-unit yields exactly the payload's
bit expansion (assuming decryption inverts encryption). -/
theorem map_dec_encryptBytes {B : HEBackend} (prv : B.PrivateKey)
    (henc : EncInverts B prv) (p : List Nat) :
    (encryptBytes B prv p).map (B.BootsSymDecrypt prv) = bytesToBits p := by
  induction p with
  | nil => rfl
  | cons b p ih =>
    simp only [encryptBytes, bytesToBits, List.map_append, ih]
    congr 1
    rw [encryptByte, List.map_map]
    apply List.map_congr_left
    intro j _
    exact henc _ Nat.and_le_right

theorem length_encryptBytes {B : HEBackend} (prv : B.PrivateKey) (p : List Nat) :
    (encryptBytes B prv p).length = 8 * p.length := by
  induction p with
  | nil => rfl
  | cons b p ih => simp [encryptBytes, encryptByte, ih]; ring

/-- Decrypting a homomorphic XOR of bit-valued ciphertexts is the pointwise
XOR of the decryptions (assuming the XOR gate is correct). -/
theorem map_dec_zipWith_xorGate {B : HEBackend} (pub : B.PublicKey) (prv : B.PrivateKey)
    (hxor : XorComputes B pub prv) (a : Ctxt B) :
    ∀ b : Ctxt B,
      (∀ u ∈ a, B.BootsSymDecrypt prv u ≤ 1) →
      (∀ u ∈ b, B.BootsSymDecrypt prv u ≤ 1) →
      (List.zipWith (B.Xor pub) a b).map (B.BootsSymDecrypt prv)
        = List.zipWith (fun x y => x ^^^ y)
            (a.map (B.BootsSymDecrypt prv)) (b.map (B.BootsSymDecrypt prv)) := by
  induction a with
  | nil => intro b _ _; simp
  | cons u a ih =>
    intro b ha hb
    cases b with
    | nil => simp
    | cons v b =>
      simp only [List.zipWith_cons_cons, List.map_cons]
      rw [ih b (fun x hx => ha x (List.mem_cons_of_mem u hx))
          (fun x hx => hb x (List.mem_cons_of_mem v hx)),
        hxor u v (ha u (List.mem_cons_self u a)) (hb v (List.mem_cons_self v b))]

/-! ### Shape of the encrypted mutation -/

theorem range_map_getD {α : Type} (l : List α) (d : α) :
    (List.range l.length).map (fun j => l.getD j d) = l := by
  apply List.ext_getElem
  · simp
  · intro j h1 h2
    simp only [List.getElem_map, List.getElem_range]
    exact List.getD_eq_getElem l d h2

/-- Closed form of the loop of `makeEncryptedMutation`: after `k` iterations
positions `i < k` and `half ≤ i < half + k` hold the drawn pair values, the
rest is untouched. -/
theorem foldRange_set_pair {B : HEBackend} (g : Nat → B.CiphertextUnit) (half : Nat) :
    ∀ (k : Nat) (acc : Ctxt B), k ≤ half → half + half ≤ acc.length →
      (List.range k).foldl
          (fun racc i => (racc.set i (g i)).set (i + half) (g i)) acc
        = (List.range acc.length).map
            (fun j => if j < k then g j
              else if half ≤ j ∧ j < half + k then g (j - half)
              else acc.getD j B.nilUnit) := by
  intro k
  induction k with
  | zero =>
    intro acc _ _
    simp only [List.range_zero, List.foldl_nil]
    have hfun : ∀ j ∈ List.range acc.length,
        (if j < 0 then g j
          else if half ≤ j ∧ j < half + 0 then g (j - half)
          else acc.getD j B.nilUnit) = acc.getD j B.nilUnit := by
      intro j _
      rw [if_neg (by omega), if_neg (by omega)]
    rw [List.map_congr_left hfun, range_map_getD]
  | succ k ih =>
    intro acc hk hlen
    rw [List.range_succ, List.foldl_append, List.foldl_cons, List.foldl_nil,
      ih acc (by omega) hlen]
    apply List.ext_getElem
    · simp
    · intro j h1 h2
      have hjlen : j < acc.length := by simpa using h1
      rw [List.getElem_set, List.getElem_set]
      simp only [List.getElem_map, List.getElem_range]
      by_cases hA : k + half = j
      · rw [if_pos hA, if_neg (show ¬ j < k + 1 by omega),
          if_pos (show half ≤ j ∧ j < half + (k + 1) by omega)]
        congr 1
        omega
      · rw [if_neg hA]
        by_cases hB : k = j
        · rw [if_pos hB, if_pos (show j < k + 1 by omega)]
          exact congrArg g hB
        · rw [if_neg hB]
          by_cases hC : j < k
          · rw [if_pos hC, if_pos (show j < k + 1 by omega)]
          · rw [if_neg hC]
            by_cases hD : half ≤ j ∧ j < half + k
            · rw [if_pos hD, if_neg (show ¬ j < k + 1 by omega),
                if_pos (show half ≤ j ∧ j < half + (k + 1) by omega)]
            · rw [if_neg hD, if_neg (show ¬ j < k + 1 by omega),
                if_neg (show ¬ (half ≤ j ∧ j < half + (k + 1)) by omega)]

/-- The mutation of an even-length ciphertext is the same drawn half repeated
twice, each entry a gate outcome applied to `encryptedPayload[0]`. -/
theorem makeEncryptedMutation_halves {B : HEBackend} (packet : Packet B)
    (ep : Ctxt B) (coins : Nat → Nat) (n : Nat) (hlen : ep.length = 2 * n) :
    makeEncryptedMutation packet ep coins
      = ((List.range n).map (mutUnit packet.pub (ep.getD 0 B.nilUnit) coins))
        ++ ((List.range n).map (mutUnit packet.pub (ep.getD 0 B.nilUnit) coins)) := by
  have hhalf : ep.length / 2 = n := by omega
  have hfold2 : (List.range n).foldl
      (fun racc i =>
        (racc.set i ((if coins i % 2 = 0 then B.Not packet.pub else fun a => a)
            (ep.getD 0 B.nilUnit))).set
          (i + n) ((if coins i % 2 = 0 then B.Not packet.pub else fun a => a)
            (ep.getD 0 B.nilUnit)))
      (List.replicate ep.length B.nilUnit)
      = (List.range (List.replicate ep.length B.nilUnit).length).map
          (fun j => if j < n then
              (if coins j % 2 = 0 then B.Not packet.pub else fun a => a)
                (ep.getD 0 B.nilUnit)
            else if n ≤ j ∧ j < n + n then
              (if coins (j - n) % 2 = 0 then B.Not packet.pub else fun a => a)
                (ep.getD 0 B.nilUnit)
            else (List.replicate ep.length B.nilUnit).getD j B.nilUnit) :=
    foldRange_set_pair _ n n _ (le_refl n)
      (by simp only [List.length_replicate]; omega)
  simp only [makeEncryptedMutation]
  rw [hhalf, hfold2]
  apply List.ext_getElem
  · simp [hlen]
    omega
  · intro j h1 h2
    have hjl : j < 2 * n := by simpa [hlen] using h1
    simp only [List.getElem_map, List.getElem_range]
    rw [List.getElem_append]
    by_cases hj : j < n
    · rw [dif_pos (by simpa using hj), if_pos hj]
      simp only [List.getElem_map, List.getElem_range]
      by_cases hc : coins j % 2 = 0 <;> simp [mutUnit, hc]
    · rw [dif_neg (by simpa using hj), if_neg hj, if_pos (by omega)]
      simp only [List.length_map, List.length_range, List.getElem_map,
        List.getElem_range]
      by_cases hc : coins (j - n) % 2 = 0 <;> simp [mutUnit, hc]

/-- Decrypting an Encrypt output recovers the payload byte for byte. -/
theorem decrypt_encryptBytes {B : HEBackend} (prv : B.PrivateKey)
    (henc : EncInverts B prv) (p : List Nat) (hb : ∀ b ∈ p, b < 256) :
    bitsToBytes ((encryptBytes B prv p).map (B.BootsSymDecrypt prv)) = p := by
  rw [map_dec_encryptBytes prv henc, bitsToBytes_bytesToBits p hb]

/-- C2: Encrypt/Decrypt round-trip — for every byte payload (the empty one
included) and every Packet holding a private key, decrypting the encryption
returns the payload, assuming `BootsSymDecrypt` inverts `BootsSymEncrypt`
on each bit. -/
theorem encrypt_decrypt_roundtrip {B : HEBackend} (p : Packet B) (prv : B.PrivateKey)
    (hp : p.prv = some prv) (henc : EncInverts B prv)
    (payload : List Nat) (hb : ∀ b ∈ payload, b < 256) :
    ∃ c : Ctxt B, p.Encrypt payload = some c ∧ p.Decrypt c = some payload := by
  refine ⟨encryptBytes B prv payload, ?_, ?_⟩
  · simp [Packet.Encrypt, hp]
  · simp [Packet.Decrypt, hp, decrypt_encryptBytes prv henc payload hb]

/-- C2 witness: the round-trip evaluated on the payload `[18, 52]` at the
concrete backend. -/
theorem encrypt_decrypt_roundtrip_witness :
    ∃ c : Ctxt natBackend,
      (Packet.mk () (some ()) : Packet natBackend).Encrypt [18, 52] = some c ∧
      (Packet.mk () (some ()) : Packet natBackend).Decrypt c = some [18, 52] :=
  encrypt_decrypt_roundtrip (Packet.mk () (some ())) () rfl
    (fun _ _ => rfl) [18, 52] (by decide)

/-- C4 counterexample: the claimed most-significant-bit-first layout is
false.  On payload `[1]` the first ciphertext unit decrypts to bit
`(1 >>> 0) &&& 1 = 1`, whereas the most-significant-bit-first layout demands
`(1 >>> 7) &&& 1 = 0` there, refuted at the concrete backend. -/
theorem encrypt_msb_first_cex :
    ¬ (∀ (B : HEBackend) (pub : B.PublicKey) (prv : B.PrivateKey),
        EncInverts B prv →
        ∀ (payload : List Nat) (c : Ctxt B),
          (Packet.mk pub (some prv)).Encrypt payload = some c →
          ∀ q, q < c.length →
            B.BootsSymDecrypt prv (c.getD q B.nilUnit)
              = (payload.getD (q / 8) 0 >>> (7 - q % 8)) &&& 1) := by
  intro h
  have h1 := h natBackend () () (fun _ _ => rfl) [1]
    (encryptBytes natBackend () [1]) (by simp [Packet.Encrypt]) 0 (by decide)
  exact absurd h1 (by decide)

/-- C4 (amended): Encrypt emits exactly eight units per payload byte (so the
length is `8 * |payload|`), with the bits of each byte emitted
least-significant-bit-first (`c[8*i + j]` decrypts to bit `j` of byte `i`),
and Decrypt consumes them in the same order, so the two are symmetric. -/
theorem encrypt_bit_layout {B : HEBackend} (pub : B.PublicKey) (prv : B.PrivateKey)
    (henc : EncInverts B prv) (payload : List Nat) (hb : ∀ b ∈ payload, b < 256) :
    ∃ c : Ctxt B,
      (Packet.mk pub (some prv)).Encrypt payload = some c ∧
      c.length = 8 * payload.length ∧
      (∀ q, q < c.length →
        B.BootsSymDecrypt prv (c.getD q B.nilUnit)
          = (payload.getD (q / 8) 0 >>> (q % 8)) &&& 1) ∧
      (Packet.mk pub (some prv)).Decrypt c = some payload := by
  refine ⟨encryptBytes B prv payload, by simp [Packet.Encrypt], ?_, ?_, ?_⟩
  · exact length_encryptBytes prv payload
  · intro q hql
    have hmap : (encryptBytes B prv payload).map (B.BootsSymDecrypt prv)
        = bytesToBits payload := map_dec_encryptBytes prv henc payload
    have hq2 : q < (bytesToBits payload).length := by
      rw [length_bytesToBits]
      rw [length_encryptBytes] at hql
      exact hql
    have e1 : ((encryptBytes B prv payload).map (B.BootsSymDecrypt prv)).getD q 0
        = B.BootsSymDecrypt prv ((encryptBytes B prv payload).getD q B.nilUnit) := by
      rw [List.getD_eq_getElem _ _ (by simpa using hql),
        List.getD_eq_getElem _ _ hql, List.getElem_map]
    rw [← e1, hmap, List.getD_eq_getElem _ _ hq2, bytesToBits_getElem]
  · simp [Packet.Decrypt, decrypt_encryptBytes prv henc payload hb]

/-- C4 witness: the amended layout statement evaluated on payload `[18]` at
the concrete backend. -/
theorem encrypt_bit_layout_witness :
    ∃ c : Ctxt natBackend,
      (Packet.mk () (some ()) : Packet natBackend).Encrypt [18] = some c ∧
      c.length = 8 * ([18] : List Nat).length ∧
      (∀ q, q < c.length →
        natBackend.BootsSymDecrypt () (c.getD q natBackend.nilUnit)
          = (([18] : List Nat).getD (q / 8) 0 >>> (q % 8)) &&& 1) ∧
      (Packet.mk () (some ()) : Packet natBackend).Decrypt c = some [18] :=
  encrypt_bit_layout () () (fun _ _ => rfl) [18] (by decide)

/-- C6: every binary gate fails fatally (`none`, the Go panic) on ciphertexts
of different lengths; on equal lengths the panic branch is unreachable and a
result of the operands' length is returned. -/
theorem binary_gate_length_contract {B : HEBackend} (p : Packet B) (a b : Ctxt B) :
    (a.length ≠ b.length →
      p.And a b = none ∧ p.Or a b = none ∧ p.Xor a b = none ∧ p.XNor a b = none) ∧
    (a.length = b.length →
      ∃ r1 r2 r3 r4 : Ctxt B,
        p.And a b = some r1 ∧ r1.length = a.length ∧
        p.Or a b = some r2 ∧ r2.length = a.length ∧
        p.Xor a b = some r3 ∧ r3.length = a.length ∧
        p.XNor a b = some r4 ∧ r4.length = a.length) := by
  constructor
  · intro hne
    refine ⟨?_, ?_, ?_, ?_⟩ <;>
      simp [Packet.And, Packet.Or, Packet.Xor, Packet.XNor, Packet.ParallelBinary, hne]
  · intro heq
    refine ⟨List.zipWith (B.And p.pub) a b, List.zipWith (B.Or p.pub) a b,
      List.zipWith (B.Xor p.pub) a b, List.zipWith (B.Xnor p.pub) a b,
      ?_, ?_, ?_, ?_, ?_, ?_, ?_, ?_⟩ <;>
      simp [Packet.And, Packet.Or, Packet.Xor, Packet.XNor, Packet.ParallelBinary,
        heq, List.length_zipWith]

/-- C6 witness: a length mismatch makes `Xor` fail and equal lengths make
`And` succeed, on concrete ciphertexts. -/
theorem binary_gate_length_contract_witness :
    (Packet.mk () none : Packet natBackend).Xor [0] [0, 1] = none ∧
    (Packet.mk () none : Packet natBackend).And [0, 1] [1, 1] ≠ none := by
  have h1 := (binary_gate_length_contract
    (Packet.mk () none : Packet natBackend) [0] [0, 1]).1 (by decide)
  have h2 := (binary_gate_length_contract
    (Packet.mk () none : Packet natBackend) [0, 1] [1, 1]).2 rfl
  refine ⟨h1.2.2.1, ?_⟩
  rcases h2 with ⟨r1, _, _, _, hAnd, _⟩
  rw [hAnd]
  simp

/-- C10: Decrypt on a zero-length ciphertext returns the empty result, and on
every non-empty ciphertext of length `L` it does not fail and returns exactly
`(L + 7) / 8` bytes; when `L` is not a multiple of eight the partial final
byte is the trailing decrypted bits placed in its high positions
(`bitsNum` of the trailing bits shifted up by `8 - L % 8`). -/
theorem decrypt_length_and_layout {B : HEBackend} (p : Packet B) (prv : B.PrivateKey)
    (hp : p.prv = some prv) (c : Ctxt B) :
    (c = [] → p.Decrypt c = some []) ∧
    (∃ bs : List Nat, p.Decrypt c = some bs ∧
      bs.length = (c.length + 7) / 8 ∧
      (c ≠ [] → c.length % 8 ≠ 0 →
        bs.getLast? = some (bitsNum ((c.drop (8 * (c.length / 8))).map
            (fun u => B.BootsSymDecrypt prv u % 2)) * 2 ^ (8 - c.length % 8)))) := by
  constructor
  · intro hc
    subst hc
    simp [Packet.Decrypt, hp, bitsToBytes_nil]
  · refine ⟨bitsToBytes (c.map (B.BootsSymDecrypt prv)),
      by simp [Packet.Decrypt, hp], ?_, ?_⟩
    · rw [length_bitsToBytes, List.length_map]
    · intro hne hmod
      have hpos : 0 < c.length := List.length_pos.mpr hne
      have hmapne : c.map (B.BootsSymDecrypt prv) ≠ [] := by
        intro hm
        have : (c.map (B.BootsSymDecrypt prv)).length = 0 := by rw [hm]; rfl
        rw [List.length_map] at this
        omega
      rw [bitsToBytes_getLast _ hmapne, List.length_map]
      have hidx : 8 * ((c.length - 1) / 8) = 8 * (c.length / 8) := by omega
      rw [hidx, ← List.map_drop]
      have hdlen : ((c.drop (8 * (c.length / 8))).map (B.BootsSymDecrypt prv)).length
          = c.length % 8 := by
        rw [List.length_map, List.length_drop]
        omega
      rw [byteAssemble_eq _ (by rw [hdlen]; omega), hdlen, List.map_map]
      rfl

/-- C10 witness: decrypting the empty ciphertext and a three-unit ciphertext
at the concrete backend. -/
theorem decrypt_length_and_layout_witness :
    ((([1, 0, 1] : Ctxt natBackend) = [] →
      (Packet.mk () (some ()) : Packet natBackend).Decrypt [1, 0, 1] = some []) ∧
    (∃ bs : List Nat,
      (Packet.mk () (some ()) : Packet natBackend).Decrypt [1, 0, 1] = some bs ∧
      bs.length = (([1, 0, 1] : Ctxt natBackend).length + 7) / 8 ∧
      (([1, 0, 1] : Ctxt natBackend) ≠ [] →
        ([1, 0, 1] : Ctxt natBackend).length % 8 ≠ 0 →
        bs.getLast? = some (bitsNum ((([1, 0, 1] : Ctxt natBackend).drop
            (8 * (([1, 0, 1] : Ctxt natBackend).length / 8))).map
            (fun u => natBackend.BootsSymDecrypt () u % 2))
          * 2 ^ (8 - ([1, 0, 1] : Ctxt natBackend).length % 8))))) :=
  @decrypt_length_and_layout natBackend (Packet.mk () (some ())) () rfl [1, 0, 1]

/-- C3: for every stored ciphertext of even length `2 * n` and every coin
sequence, the mutation has the same length, holds equal units at the paired
positions `i` and `i + n`, each pair is either `encryptedSecret[0]` unchanged
or its homomorphic NOT with the same choice on both members, and the result
depends on the input only through its length and its unit at position 0. -/
theorem makeEncryptedMutation_pairing {B : HEBackend} (pkt : Packet B)
    (es : Ctxt B) (coins : Nat → Nat) (n : Nat) (hlen : es.length = 2 * n) :
    (makeEncryptedMutation pkt es coins).length = es.length ∧
    (∀ i, i < n →
      (makeEncryptedMutation pkt es coins).getD i B.nilUnit
        = (makeEncryptedMutation pkt es coins).getD (i + n) B.nilUnit) ∧
    (∀ i, i < n →
      ((makeEncryptedMutation pkt es coins).getD i B.nilUnit
          = B.Not pkt.pub (es.getD 0 B.nilUnit) ∧
        (makeEncryptedMutation pkt es coins).getD (i + n) B.nilUnit
          = B.Not pkt.pub (es.getD 0 B.nilUnit))
      ∨ ((makeEncryptedMutation pkt es coins).getD i B.nilUnit
          = es.getD 0 B.nilUnit ∧
        (makeEncryptedMutation pkt es coins).getD (i + n) B.nilUnit
          = es.getD 0 B.nilUnit)) ∧
    (∀ es' : Ctxt B, es'.length = es.length →
      es'.getD 0 B.nilUnit = es.getD 0 B.nilUnit →
      makeEncryptedMutation pkt es' coins = makeEncryptedMutation pkt es coins) := by
  have hm := makeEncryptedMutation_halves pkt es coins n hlen
  have hmblen : ((List.range n).map (mutUnit pkt.pub (es.getD 0 B.nilUnit) coins)).length
      = n := by simp
  have hget1 : ∀ i, i < n →
      (makeEncryptedMutation pkt es coins).getD i B.nilUnit
        = mutUnit pkt.pub (es.getD 0 B.nilUnit) coins i := by
    intro i hi
    rw [hm, List.getD_eq_getElem _ _ (by simp [hlen]; omega), List.getElem_append,
      dif_pos (by simpa using hi)]
    simp
  have hget2 : ∀ i, i < n →
      (makeEncryptedMutation pkt es coins).getD (i + n) B.nilUnit
        = mutUnit pkt.pub (es.getD 0 B.nilUnit) coins i := by
    intro i hi
    rw [hm, List.getD_eq_getElem _ _
        (by simp only [List.length_append, List.length_map, List.length_range]; omega),
      List.getElem_append,
      dif_neg (by simp only [List.length_map, List.length_range]; omega)]
    simp only [List.length_map, List.length_range, List.getElem_map,
      List.getElem_range]
    congr 1
    omega
  refine ⟨?_, ?_, ?_, ?_⟩
  · rw [hm]
    simp only [List.length_append, List.length_map, List.length_range, hlen]
    omega
  · intro i hi
    rw [hget1 i hi, hget2 i hi]
  · intro i hi
    rw [hget1 i hi, hget2 i hi, mutUnit]
    by_cases hc : coins i % 2 = 0
    · left
      rw [if_pos hc]
      exact ⟨rfl, rfl⟩
    · right
      rw [if_neg hc]
      exact ⟨rfl, rfl⟩
  · intro es' hlen' hhead
    rw [makeEncryptedMutation_halves pkt es' coins n (by omega), hm, hhead]

/-- C3 witness: the pairing statement evaluated at the concrete backend on a
four-unit ciphertext and the identity coin sequence. -/
theorem makeEncryptedMutation_pairing_witness :
    ((makeEncryptedMutation (Packet.mk () none : Packet natBackend) [1, 0, 1, 1]
        (fun i => i)).length = ([1, 0, 1, 1] : Ctxt natBackend).length ∧
    (∀ i, i < 2 →
      (makeEncryptedMutation (Packet.mk () none : Packet natBackend) [1, 0, 1, 1]
          (fun i => i)).getD i natBackend.nilUnit
        = (makeEncryptedMutation (Packet.mk () none : Packet natBackend) [1, 0, 1, 1]
            (fun i => i)).getD (i + 2) natBackend.nilUnit) ∧
    (∀ i, i < 2 →
      ((makeEncryptedMutation (Packet.mk () none : Packet natBackend) [1, 0, 1, 1]
          (fun i => i)).getD i natBackend.nilUnit
          = natBackend.Not () (([1, 0, 1, 1] : Ctxt natBackend).getD 0 natBackend.nilUnit) ∧
        (makeEncryptedMutation (Packet.mk () none : Packet natBackend) [1, 0, 1, 1]
          (fun i => i)).getD (i + 2) natBackend.nilUnit
          = natBackend.Not () (([1, 0, 1, 1] : Ctxt natBackend).getD 0 natBackend.nilUnit))
      ∨ ((makeEncryptedMutation (Packet.mk () none : Packet natBackend) [1, 0, 1, 1]
          (fun i => i)).getD i natBackend.nilUnit
          = ([1, 0, 1, 1] : Ctxt natBackend).getD 0 natBackend.nilUnit ∧
        (makeEncryptedMutation (Packet.mk () none : Packet natBackend) [1, 0, 1, 1]
          (fun i => i)).getD (i + 2) natBackend.nilUnit
          = ([1, 0, 1, 1] : Ctxt natBackend).getD 0 natBackend.nilUnit)) ∧
    (∀ es' : Ctxt natBackend, es'.length = ([1, 0, 1, 1] : Ctxt natBackend).length →
      es'.getD 0 natBackend.nilUnit
        = ([1, 0, 1, 1] : Ctxt natBackend).getD 0 natBackend.nilUnit →
      makeEncryptedMutation (Packet.mk () none : Packet natBackend) es' (fun i => i)
        = makeEncryptedMutation (Packet.mk () none : Packet natBackend) [1, 0, 1, 1]
            (fun i => i))) :=
  makeEncryptedMutation_pairing (Packet.mk () none) [1, 0, 1, 1] (fun i => i) 2 rfl

/-- C1: Login recovery is exact.  For every secret and noise of equal length
`n`, and every coin sequence, if the client encrypts
`payload = noise ‖ (noise XOR secret)` as at sign-up, the server returns the
homomorphic XOR of the encrypted mutation with that ciphertext, and the
client decrypts and XORs the first `n` bytes with the last `n`, the result
is exactly `secret` — assuming decryption inverts encryption and the NOT and
XOR gates compute their boolean functions. -/
theorem login_recovery_exact {B : HEBackend} (pub : B.PublicKey) (prv : B.PrivateKey)
    (henc : EncInverts B prv) (hnot : NotComputes B pub prv)
    (hxor : XorComputes B pub prv)
    (secret noise : List Nat) (hlen : noise.length = secret.length)
    (hsec : ∀ b ∈ secret, b < 256) (hnoise : ∀ b ∈ noise, b < 256)
    (coins : Nat → Nat) :
    ∃ (mask : List Nat) (es emc : Ctxt B),
      xorBytes noise secret = some mask ∧
      (Packet.mk pub (some prv)).Encrypt (noise ++ mask) = some es ∧
      (MakePublicPacket B pub).Xor
        (makeEncryptedMutation (MakePublicPacket B pub) es coins) es = some emc ∧
      logInRecover (Packet.mk pub (some prv)) noise.length emc = some secret := by
  simp only [MakePublicPacket]
  have hmask : xorBytes noise secret
      = some (List.zipWith (fun x y => x ^^^ y) noise secret) := by
    rw [xorBytes, if_pos hlen]
  set mask := List.zipWith (fun x y => x ^^^ y) noise secret with hmaskdef
  have hmlen : mask.length = noise.length := by
    rw [hmaskdef, List.length_zipWith, hlen, Nat.min_self]
  set payload := noise ++ mask with hpayloaddef
  have hplen : payload.length = 2 * noise.length := by
    rw [hpayloaddef, List.length_append, hmlen]; ring
  set es := encryptBytes B prv payload with hesdef
  have heslen : es.length = 2 * (8 * noise.length) := by
    rw [hesdef, length_encryptBytes, hplen]; ring
  have hdeces : es.map (B.BootsSymDecrypt prv) = bytesToBits payload := by
    rw [hesdef]; exact map_dec_encryptBytes prv henc payload
  have hesbits : ∀ u ∈ es, B.BootsSymDecrypt prv u ≤ 1 := by
    intro u hu
    have hmem : B.BootsSymDecrypt prv u ∈ bytesToBits payload := by
      rw [← hdeces]
      exact List.mem_map_of_mem _ hu
    exact isBitList_bytesToBits payload _ hmem
  have hmut := makeEncryptedMutation_halves (Packet.mk pub none) es coins
      (8 * noise.length) heslen
  set mb := (List.range (8 * noise.length)).map
      (mutUnit (Packet.mk pub none : Packet B).pub (es.getD 0 B.nilUnit) coins)
    with hmbdef
  have hmblen : mb.length = 8 * noise.length := by
    rw [hmbdef]; simp
  have he0mem : ∀ x ∈ mb, B.BootsSymDecrypt prv x ≤ 1 := by
    intro x hx
    rw [hmbdef] at hx
    rcases List.mem_map.mp hx with ⟨i, hi, rfl⟩
    have hi8 : i < 8 * noise.length := List.mem_range.mp hi
    have hlen0 : 0 < es.length := by rw [heslen]; omega
    have hes0 : es.getD 0 B.nilUnit ∈ es := by
      rw [List.getD_eq_getElem _ _ hlen0]
      exact List.getElem_mem _
    have hd0 : B.BootsSymDecrypt prv (es.getD 0 B.nilUnit) ≤ 1 := hesbits _ hes0
    rw [mutUnit]
    by_cases hc : coins i % 2 = 0
    · rw [if_pos hc, hnot _ hd0]
      exact xor_le_one (by norm_num) hd0
    · rw [if_neg hc]; exact hd0
  have hmutlen : (makeEncryptedMutation (Packet.mk pub none) es coins).length
      = es.length := by
    rw [hmut, List.length_append, hmblen, heslen]; omega
  have hxorSome : (Packet.mk pub none : Packet B).Xor
      (makeEncryptedMutation (Packet.mk pub none) es coins) es
      = some (List.zipWith (B.Xor pub) (mb ++ mb) es) := by
    rw [Packet.Xor, Packet.ParallelBinary, if_pos hmutlen, hmut]
  set emc := List.zipWith (B.Xor pub) (mb ++ mb) es with hemcdef
  have hmbbits : ∀ u ∈ mb ++ mb, B.BootsSymDecrypt prv u ≤ 1 := by
    intro u hu
    rcases List.mem_append.mp hu with h | h
    · exact he0mem u h
    · exact he0mem u h
  have hdecemc : emc.map (B.BootsSymDecrypt prv)
      = List.zipWith (fun x y => x ^^^ y)
          ((mb ++ mb).map (B.BootsSymDecrypt prv)) (es.map (B.BootsSymDecrypt prv)) := by
    rw [hemcdef]
    exact map_dec_zipWith_xorGate pub prv hxor (mb ++ mb) es hmbbits hesbits
  set mbb := mb.map (B.BootsSymDecrypt prv) with hmbbdef
  have hmbblen : mbb.length = 8 * noise.length := by
    rw [hmbbdef, List.length_map, hmblen]
  have hbnlen : (bytesToBits noise).length = 8 * noise.length :=
    length_bytesToBits noise
  have hbmlen : (bytesToBits mask).length = 8 * noise.length := by
    rw [length_bytesToBits, hmlen]
  have hzipsplit : emc.map (B.BootsSymDecrypt prv)
      = List.zipWith (fun x y => x ^^^ y) mbb (bytesToBits noise)
        ++ List.zipWith (fun x y => x ^^^ y) mbb (bytesToBits mask) := by
    rw [hdecemc, List.map_append, hdeces, hpayloaddef, bytesToBits_append,
      ← hmbbdef, List.zipWith_append _ _ _ _ _ (by rw [hmbblen, hbnlen])]
  set zw1 := List.zipWith (fun x y => x ^^^ y) mbb (bytesToBits noise) with hzw1def
  set zw2 := List.zipWith (fun x y => x ^^^ y) mbb (bytesToBits mask) with hzw2def
  have hzw1len : zw1.length = 8 * noise.length := by
    rw [hzw1def, List.length_zipWith, hmbblen, hbnlen, Nat.min_self]
  have hzw2len : zw2.length = 8 * noise.length := by
    rw [hzw2def, List.length_zipWith, hmbblen, hbmlen, Nat.min_self]
  have hIsmbb : IsBitList mbb := by
    intro d hd
    rw [hmbbdef] at hd
    rcases List.mem_map.mp hd with ⟨u, hu, rfl⟩
    exact he0mem u hu
  have hbits1 : IsBitList zw1 := by
    intro d hd
    rw [hzw1def] at hd
    rcases List.mem_iff_getElem.mp hd with ⟨q, hq, rfl⟩
    rw [List.getElem_zipWith]
    exact xor_le_one (hIsmbb _ (List.getElem_mem _))
      (isBitList_bytesToBits noise _ (List.getElem_mem _))
  have hbits2 : IsBitList zw2 := by
    intro d hd
    rw [hzw2def] at hd
    rcases List.mem_iff_getElem.mp hd with ⟨q, hq, rfl⟩
    rw [List.getElem_zipWith]
    exact xor_le_one (hIsmbb _ (List.getElem_mem _))
      (isBitList_bytesToBits mask _ (List.getElem_mem _))
  have hmsplit : bitsToBytes (emc.map (B.BootsSymDecrypt prv))
      = bitsToBytes zw1 ++ bitsToBytes zw2 := by
    rw [hzipsplit,
      bitsToBytes_append _ _ (by rw [hzw1len]; exact ⟨noise.length, rfl⟩)]
  have hb1len : (bitsToBytes zw1).length = noise.length := by
    rw [length_bitsToBytes, hzw1len]; omega
  have hb2len : (bitsToBytes zw2).length = noise.length := by
    rw [length_bitsToBytes, hzw2len]; omega
  have hkey : List.zipWith (fun x y => x ^^^ y) (bitsToBytes zw1) (bitsToBytes zw2)
      = secret := by
    rw [← bitsToBytes_zipWith_xor zw1 zw2 (by rw [hzw1len, hzw2len]) hbits1 hbits2,
      hzw1def, hzw2def,
      zipWith_xor_cancel_pair mbb _ _ (by rw [hmbblen, hbnlen]) (by rw [hmbblen, hbmlen]),
      ← bytesToBits_zipWith_xor noise mask hmlen.symm,
      hmaskdef, zipWith_xor_cancel_left noise secret hlen,
      bitsToBytes_bytesToBits secret hsec]
  refine ⟨mask, es, emc, hmask, by simp [Packet.Encrypt, hesdef], hxorSome, ?_⟩
  have hdecode : (Packet.mk pub (some prv) : Packet B).Decrypt emc
      = some (bitsToBytes (emc.map (B.BootsSymDecrypt prv))) := by
    simp [Packet.Decrypt]
  rw [logInRecover, hdecode]
  simp only []
  rw [hmsplit]
  rw [if_pos (by rw [List.length_append, hb1len, hb2len]; omega),
    List.take_left' hb1len, List.drop_left' hb1len, xorBytes,
    if_pos (by rw [hb1len, hb2len]), hkey]

/-- C1 witness: the full sign-up/login pipeline evaluated at the concrete
backend with secret `[18]`, noise `[5]` and the identity coin sequence. -/
theorem login_recovery_exact_witness :
    ∃ (mask : List Nat) (es emc : Ctxt natBackend),
      xorBytes [5] [18] = some mask ∧
      (Packet.mk () (some ()) : Packet natBackend).Encrypt ([5] ++ mask) = some es ∧
      (MakePublicPacket natBackend ()).Xor
        (makeEncryptedMutation (MakePublicPacket natBackend ()) es (fun i => i))
        es = some emc ∧
      logInRecover (Packet.mk () (some ()) : Packet natBackend)
        ([5] : List Nat).length emc = some [18] :=
  @login_recovery_exact natBackend () () (fun _ _ => rfl) (fun _ _ => rfl)
    (fun _ _ _ _ => rfl) [18] [5] rfl (by decide) (by decide) (fun i => i)

/-- C5: keystream determinism — two ByteStreams built by `MakeByteStream`
from equal key bytes succeed or fail together and, run against the same
sequence of `NextBytes`/`NextByte` calls, produce identical outputs. -/
theorem makeByteStream_deterministic (L : CipherLib) (key1 key2 : List Nat)
    (hk : key1 = key2) (calls : List StreamCall) :
    Option.map (fun cbs => runCalls L cbs calls) (MakeByteStream L key1)
      = Option.map (fun cbs => runCalls L cbs calls) (MakeByteStream L key2) := by
  subst hk
  rfl

/-- C5 witness: determinism evaluated at the concrete cipher library on the
key `[1, 2]` and a two-call sequence. -/
theorem makeByteStream_deterministic_witness :
    Option.map (fun cbs => runCalls natLib cbs [.nextBytes 2, .nextByte])
        (MakeByteStream natLib [1, 2])
      = Option.map (fun cbs => runCalls natLib cbs [.nextBytes 2, .nextByte])
        (MakeByteStream natLib [1, 2]) :=
  makeByteStream_deterministic natLib [1, 2] [1, 2] rfl [.nextBytes 2, .nextByte]

/-- C7: sign-up exclusivity and atomicity under serialized execution.  A
sign-up for an absent username succeeds with status 200 and inserts exactly
one record for that username; a subsequent sign-up for the same username
fails with 400 and the `errUserExists` value and leaves the registry
unchanged; and every non-200 outcome leaves the registry unchanged. -/
theorem signUpHandler_exclusivity {B : HEBackend} (db : UserDatabase B)
    (r : SignUpRequest B) (salt digest : List Nat)
    (hashWrite : List Nat → Option (List Nat))
    (hfresh : db r.Username = none)
    (hhash : hashWrite (salt ++ r.Secret) = some digest) :
    ((SignUpHandler db (some r) (some salt) hashWrite).status = 200 ∧
      (SignUpHandler db (some r) (some salt) hashWrite).err = none ∧
      (SignUpHandler db (some r) (some salt) hashWrite).userDatabase r.Username
        = some ⟨r.Username, r.EncryptedSecret, digest, salt⟩ ∧
      (∀ u, u ≠ r.Username →
        (SignUpHandler db (some r) (some salt) hashWrite).userDatabase u = db u)) ∧
    (∀ (r2 : SignUpRequest B) (salt2 : Option (List Nat))
        (hw2 : List Nat → Option (List Nat)),
      r2.Username = r.Username →
      SignUpHandler (SignUpHandler db (some r) (some salt) hashWrite).userDatabase
          (some r2) salt2 hw2
        = ⟨400, some .userExists,
            (SignUpHandler db (some r) (some salt) hashWrite).userDatabase⟩) ∧
    (∀ (db2 : UserDatabase B) (dec2 : Option (SignUpRequest B))
        (salt2 : Option (List Nat)) (hw2 : List Nat → Option (List Nat)),
      (SignUpHandler db2 dec2 salt2 hw2).status ≠ 200 →
      (SignUpHandler db2 dec2 salt2 hw2).userDatabase = db2) := by
  have hrun : SignUpHandler db (some r) (some salt) hashWrite
      = ⟨200, none, fun u => if u = r.Username then
          some ⟨r.Username, r.EncryptedSecret, digest, salt⟩ else db u⟩ := by
    simp [SignUpHandler, hfresh, hhash]
  refine ⟨?_, ?_, ?_⟩
  · rw [hrun]
    refine ⟨rfl, rfl, by simp, ?_⟩
    intro u hu
    simp [hu]
  · intro r2 salt2 hw2 heq
    rw [hrun]
    simp [SignUpHandler, heq]
  · intro db2 dec2 salt2 hw2 hst
    cases dec2 with
    | none => rfl
    | some req =>
      cases hdb : db2 req.Username with
      | some u => simp [SignUpHandler, hdb]
      | none =>
        cases salt2 with
        | none => simp [SignUpHandler, hdb]
        | some s =>
          cases hhw : hw2 (s ++ req.Secret) with
          | none => simp [SignUpHandler, hdb, hhw]
          | some d =>
            exfalso
            exact hst (by simp [SignUpHandler, hdb, hhw])

/-- C7 witness: a first sign-up for `alice` succeeds and a second conflicts,
on a concrete empty registry. -/
theorem signUpHandler_exclusivity_witness :
    (SignUpHandler (fun _ => none) (some ⟨"alice", [], [7]⟩) (some [1])
        (fun l => some l) : SignUpOutcome natBackend).status = 200 ∧
    SignUpHandler
        (SignUpHandler (fun _ => none) (some ⟨"alice", [], [7]⟩) (some [1])
          (fun l => some l) : SignUpOutcome natBackend).userDatabase
        (some ⟨"alice", [], [7]⟩) (some [1]) (fun l => some l)
      = ⟨400, some .userExists,
          (SignUpHandler (fun _ => none) (some ⟨"alice", [], [7]⟩) (some [1])
            (fun l => some l) : SignUpOutcome natBackend).userDatabase⟩ := by
  have h := @signUpHandler_exclusivity natBackend (fun _ => none)
    ⟨"alice", [], [7]⟩ [1] ([1] ++ [7]) (fun l => some l) rfl rfl
  exact ⟨h.1.1, h.2.1 ⟨"alice", [], [7]⟩ (some [1]) (fun l => some l) rfl⟩

/-- C8: a phase-1 or phase-2 request for a never-registered username fails
with the user-does-not-exist client error (status 400) and the registry is
returned unchanged; phase 2 on an existing user whose salted hash of the
submitted secret differs from the stored hash fails with the distinct
forbidden error (status 403, `errInvalidCredentials`); the two results are
different. -/
theorem unknown_user_errors {B : HEBackend} (db : UserDatabase B) (username : String)
    (habsent : db username = none) :
    (∀ (req : FirstLogInRequest B) (coins : Nat → Nat), req.Username = username →
      FirstLoginHandler db (some req) coins
        = (.clientErr 400 .userDoesNotExist, db)) ∧
    (∀ (req : SecondLogInRequest) (hw : List Nat → Option (List Nat)),
      req.Username = username →
      SecondLoginHandler db (some req) hw
        = ((.clientErr 400 .userDoesNotExist : LoginResult B), db)) ∧
    (∀ (db2 : UserDatabase B) (req : SecondLogInRequest) (user : User B)
        (hw : List Nat → Option (List Nat)) (digest : List Nat),
      db2 req.Username = some user → hw (user.Salt ++ req.Secret) = some digest →
      digest ≠ user.SecretHash →
      SecondLoginHandler db2 (some req) hw
        = ((.clientErr 403 .invalidCredentials : LoginResult B), db2)) ∧
    ((LoginResult.clientErr 400 .userDoesNotExist : LoginResult B)
      ≠ (LoginResult.clientErr 403 .invalidCredentials : LoginResult B)) := by
  refine ⟨?_, ?_, ?_, ?_⟩
  · intro req coins hname
    have habs2 : db req.Username = none := by rw [hname]; exact habsent
    simp [FirstLoginHandler, habs2]
  · intro req hw hname
    have habs2 : db req.Username = none := by rw [hname]; exact habsent
    simp [SecondLoginHandler, habs2]
  · intro db2 req user hw digest hlook hhw hne
    simp [SecondLoginHandler, hlook, hhw, hne]
  · simp

/-- C8 witness: both handlers on an empty registry for `bob`, and a hash
mismatch for a registered `carol`, at the concrete backend. -/
theorem unknown_user_errors_witness :
    FirstLoginHandler (fun _ => none) (some ⟨"bob", ()⟩) (fun i => i)
        = ((.clientErr 400 .userDoesNotExist : LoginResult natBackend),
            (fun _ => none)) ∧
    SecondLoginHandler (fun _ => none : UserDatabase natBackend)
        (some ⟨"bob", [3]⟩) (fun l => some l)
      = ((.clientErr 400 .userDoesNotExist : LoginResult natBackend),
          (fun _ => none)) := by
  have h := @unknown_user_errors natBackend (fun _ => none) "bob" rfl
  exact ⟨h.1 ⟨"bob", ()⟩ (fun i => i) rfl, h.2.1 ⟨"bob", [3]⟩ (fun l => some l) rfl⟩

/-- Round trip of the polynomial copies performed by
`MakePublicKey`/`fromPublicKey`. -/
theorem poly_copy_roundtrip {T : TfheTypes} (l : List (core.LagrangeHalfCPolynomial T)) :
    ((l.map fun x => (⟨x.Coefs⟩ : crypto.lagrangeHalfCPolynomial T)).map
        fun x => (⟨x.Coefs⟩ : core.LagrangeHalfCPolynomial T)) = l := by
  rw [List.map_map]
  conv_rhs => rw [← List.map_id l]
  apply List.map_congr_left
  intro x _
  rfl

/-- Round trip of the TLWE sample copies. -/
theorem tlwe_copy_roundtrip {T : TfheTypes} (l : List (core.TLweSampleFFT T)) :
    ((l.map fun w =>
        (⟨w.A.map fun x => ⟨x.Coefs⟩, w.CurrentVariance, w.K⟩ : crypto.tLweSampleFFT T)).map
      fun w => (⟨w.A.map fun x => ⟨x.Coefs⟩, w.CurrentVariance, w.K⟩ : core.TLweSampleFFT T)) = l := by
  rw [List.map_map]
  conv_rhs => rw [← List.map_id l]
  apply List.map_congr_left
  intro w _
  obtain ⟨wA, wCV, wK⟩ := w
  dsimp only [Function.comp]
  rw [poly_copy_roundtrip wA]
  rfl

/-- C9 counterexample: the round trip is not exact for every go-tfhe public
key.  `MakePublicKey` and `fromPublicKey` rebuild the `BkFFT` parameter
fields from `Bkw.Bk`, so the concrete key `badPk`, whose cached
`BkFFT.InOutParams` differs from `Bk.InOutParams`, changes under the round
trip. -/
theorem publicKey_roundtrip_cex :
    (MakePublicKey badPk).fromPublicKey ≠ badPk := by
  intro h
  have h1 := congrArg (fun pk => pk.Bkw.BkFFT.InOutParams) h
  simp [MakePublicKey, crypto.PublicKey.fromPublicKey, badPk] at h1

/-- C9 (amended): the public-key round trip preserves `Params`, `Bkw.Bk` and
every FFT sample (all polynomial coefficients included), and it is exact —
`fromPublicKey (MakePublicKey pk) = pk` — whenever the cached `BkFFT`
parameter fields of `pk` agree with those of its `Bkw.Bk`, as holds for
every key the library constructs. -/
theorem publicKey_roundtrip {T : TfheTypes} (pk : gates.PublicKey T)
    (h1 : pk.Bkw.BkFFT.InOutParams = pk.Bkw.Bk.InOutParams)
    (h2 : pk.Bkw.BkFFT.BkParams = pk.Bkw.Bk.BkParams)
    (h3 : pk.Bkw.BkFFT.AccumParams = pk.Bkw.Bk.AccumParams)
    (h4 : pk.Bkw.BkFFT.ExtractParams = pk.Bkw.Bk.ExtractParams)
    (h5 : pk.Bkw.BkFFT.Ks = pk.Bkw.Bk.Ks) :
    (MakePublicKey pk).fromPublicKey = pk := by
  obtain ⟨Params, ⟨Bk, ⟨fIn, fBkp, fAcc, fExt, fList, fKs⟩⟩⟩ := pk
  simp only at h1 h2 h3 h4 h5
  subst h1 h2 h3 h4 h5
  simp only [MakePublicKey, crypto.PublicKey.fromPublicKey]
  congr 1
  congr 1
  congr 1
  rw [List.map_map]
  have hmap : ∀ v ∈ fList,
      ((fun (v : crypto.tGswSampleFFT T) =>
          (⟨v.AllSample.map fun w => ⟨w.A.map fun x => ⟨x.Coefs⟩, w.CurrentVariance, w.K⟩,
            v.BlocSample.map fun w => w.map fun x =>
              ⟨x.A.map fun y => ⟨y.Coefs⟩, x.CurrentVariance, x.K⟩,
            v.K, v.L⟩ : core.TGswSampleFFT T)) ∘
        (fun (v : core.TGswSampleFFT T) =>
          (⟨v.AllSample.map fun w => ⟨w.A.map fun x => ⟨x.Coefs⟩, w.CurrentVariance, w.K⟩,
            v.BlocSample.map fun w => w.map fun x =>
              ⟨x.A.map fun y => ⟨y.Coefs⟩, x.CurrentVariance, x.K⟩,
            v.K, v.L⟩ : crypto.tGswSampleFFT T))) v = v := by
    intro v _
    obtain ⟨vAll, vBloc, vK, vL⟩ := v
    dsimp only [Function.comp]
    rw [tlwe_copy_roundtrip vAll]
    congr 1
    rw [List.map_map]
    conv_rhs => rw [← List.map_id vBloc]
    apply List.map_congr_left
    intro w _
    dsimp only [Function.comp]
    exact tlwe_copy_roundtrip w
  conv_rhs => rw [← List.map_id fList]
  exact List.map_congr_left hmap

/-- C9 witness: the round trip evaluated on a concrete well-formed key whose
cached `BkFFT` parameter fields agree with its `Bkw.Bk`. -/
theorem publicKey_roundtrip_witness :
    (MakePublicKey
        (⟨0, ⟨⟨0, 0, 0, 0, 0, 0⟩, ⟨0, 0, 0, 0, [], 0⟩⟩⟩ :
          gates.PublicKey natTypes)).fromPublicKey
      = ⟨0, ⟨⟨0, 0, 0, 0, 0, 0⟩, ⟨0, 0, 0, 0, [], 0⟩⟩⟩ :=
  publicKey_roundtrip _ rfl rfl rfl rfl rfl
